import Mathlib

/-!
Verification of the `rt` ray tracer (Peter Shirley's "Ray Tracing in One
Weekend" in Rust).  The floating-point scalar type `Elem` of the source is
modelled by the real numbers; the rejection-sampling randomness sources
(`random_in_unit_sphere`, `rand::random`) are modelled by oracle inputs that
supply each draw's outcome.  All geometry, material and rendering code is
translated directly from `src/vec.rs`, `src/geometry.rs`, `src/material.rs`
and `src/main.rs`.
-/

namespace RT

/-- Scalar element type of the vector module (`pub type Elem = f64`),
modelled by the reals. -/
abbrev Elem := ℝ

/-- 3D vector, `Vec3(pub Elem, pub Elem, pub Elem)` with accessors
`x`, `y`, `z` (and `r`, `g`, `b` aliases). -/
structure Vec3 where
  x : Elem
  y : Elem
  z : Elem

namespace Vec3

/-- `Vec3::r` — alias of the first coordinate. -/
def r (v : Vec3) : Elem := v.x

/-- `Vec3::g` — alias of the second coordinate. -/
def g (v : Vec3) : Elem := v.y

/-- `Vec3::b` — alias of the third coordinate. -/
def b (v : Vec3) : Elem := v.z

/-- `Vec3::length_squared`. -/
def length_squared (v : Vec3) : Elem := v.x * v.x + v.y * v.y + v.z * v.z

/-- `Vec3::length`. -/
noncomputable def length (v : Vec3) : Elem := Real.sqrt v.length_squared

/-- `Vec3::dot`. -/
def dot (v w : Vec3) : Elem := v.x * w.x + v.y * w.y + v.z * w.z

/-- `Vec3::dot2` (free-standing two-argument dot product). -/
def dot2 (v w : Vec3) : Elem := v.x * w.x + v.y * w.y + v.z * w.z

/-- `Vec3::cross`. -/
def cross (v w : Vec3) : Vec3 :=
  ⟨v.y * w.z - v.z * w.y, -(v.x * w.z - v.z * w.x), v.x * w.y - v.y * w.x⟩

/-- `Vec3::zero`. -/
def zero : Vec3 := ⟨0, 0, 0⟩

/-- `Vec3::ones`. -/
def ones : Vec3 := ⟨1, 1, 1⟩

end Vec3

/-- `impl Add for Vec3` — componentwise addition. -/
instance : Add Vec3 := ⟨fun a b => ⟨a.x + b.x, a.y + b.y, a.z + b.z⟩⟩

/-- `impl Sub for Vec3` — componentwise subtraction. -/
instance : Sub Vec3 := ⟨fun a b => ⟨a.x - b.x, a.y - b.y, a.z - b.z⟩⟩

/-- `impl Neg for Vec3`. -/
instance : Neg Vec3 := ⟨fun a => ⟨-a.x, -a.y, -a.z⟩⟩

/-- `impl Mul for Vec3` — componentwise (Hadamard) product. -/
instance : Mul Vec3 := ⟨fun a b => ⟨a.x * b.x, a.y * b.y, a.z * b.z⟩⟩

/-- `impl Mul<Vec3> for Elem` — scalar times vector. -/
instance : HMul Elem Vec3 Vec3 := ⟨fun k a => ⟨k * a.x, k * a.y, k * a.z⟩⟩

/-- `impl Mul<Elem> for Vec3` — vector times scalar. -/
instance : HMul Vec3 Elem Vec3 := ⟨fun a k => ⟨k * a.x, k * a.y, k * a.z⟩⟩

/-- `impl Div<Elem> for Vec3` — componentwise division by a scalar. -/
noncomputable instance : HDiv Vec3 Elem Vec3 := ⟨fun a k => ⟨a.x / k, a.y / k, a.z / k⟩⟩

/-- `impl Div for Vec3` — componentwise division. -/
noncomputable instance : Div Vec3 := ⟨fun a b => ⟨a.x / b.x, a.y / b.y, a.z / b.z⟩⟩

namespace Vec3

/-- `Vec3::unit_vector` — `v / length(v)`. -/
noncomputable def unit_vector (v : Vec3) : Vec3 := v / v.length

/-- `Vec3::sqrt_coords` — componentwise square root (the in-place mutation
of the source, rendered as a pure function). -/
noncomputable def sqrt_coords (v : Vec3) : Vec3 :=
  ⟨Real.sqrt v.x, Real.sqrt v.y, Real.sqrt v.z⟩

@[simp] theorem add_x (a b : Vec3) : (a + b).x = a.x + b.x := rfl
@[simp] theorem add_y (a b : Vec3) : (a + b).y = a.y + b.y := rfl
@[simp] theorem add_z (a b : Vec3) : (a + b).z = a.z + b.z := rfl
@[simp] theorem sub_x (a b : Vec3) : (a - b).x = a.x - b.x := rfl
@[simp] theorem sub_y (a b : Vec3) : (a - b).y = a.y - b.y := rfl
@[simp] theorem sub_z (a b : Vec3) : (a - b).z = a.z - b.z := rfl
@[simp] theorem neg_x (a : Vec3) : (-a).x = -a.x := rfl
@[simp] theorem neg_y (a : Vec3) : (-a).y = -a.y := rfl
@[simp] theorem neg_z (a : Vec3) : (-a).z = -a.z := rfl
@[simp] theorem mul_x (a b : Vec3) : (a * b).x = a.x * b.x := rfl
@[simp] theorem mul_y (a b : Vec3) : (a * b).y = a.y * b.y := rfl
@[simp] theorem mul_z (a b : Vec3) : (a * b).z = a.z * b.z := rfl
@[simp] theorem smul_x (k : Elem) (a : Vec3) : (k * a).x = k * a.x := rfl
@[simp] theorem smul_y (k : Elem) (a : Vec3) : (k * a).y = k * a.y := rfl
@[simp] theorem smul_z (k : Elem) (a : Vec3) : (k * a).z = k * a.z := rfl
@[simp] theorem muls_x (a : Vec3) (k : Elem) : (a * k).x = k * a.x := rfl
@[simp] theorem muls_y (a : Vec3) (k : Elem) : (a * k).y = k * a.y := rfl
@[simp] theorem muls_z (a : Vec3) (k : Elem) : (a * k).z = k * a.z := rfl
@[simp] theorem divs_x (a : Vec3) (k : Elem) : (a / k).x = a.x / k := rfl
@[simp] theorem divs_y (a : Vec3) (k : Elem) : (a / k).y = a.y / k := rfl
@[simp] theorem divs_z (a : Vec3) (k : Elem) : (a / k).z = a.z / k := rfl
@[simp] theorem mk_x (a b c : Elem) : (Vec3.mk a b c).x = a := rfl
@[simp] theorem mk_y (a b c : Elem) : (Vec3.mk a b c).y = b := rfl
@[simp] theorem mk_z (a b c : Elem) : (Vec3.mk a b c).z = c := rfl

theorem ext_iff {a b : Vec3} : a = b ↔ a.x = b.x ∧ a.y = b.y ∧ a.z = b.z := by
  constructor
  · rintro rfl; exact ⟨rfl, rfl, rfl⟩
  · rcases a with ⟨ax, ay, az⟩; rcases b with ⟨bx, by', bz⟩
    rintro ⟨h1, h2, h3⟩; simp_all

end Vec3

/-- `Ray` — origin (`from`) and direction (`to`), exposed through
`origin()` and `direction()`. -/
structure Ray where
  origin : Vec3
  direction : Vec3

/-- `Ray::point_at_parameter` — `from + t * to`. -/
def Ray.point_at_parameter (ray : Ray) (t : Elem) : Vec3 :=
  ray.origin + t * ray.direction

/-- The closed set of materials of the repository: `Lambertian`, `Metal`
and `Dielectric` (each a struct implementing the `Material` trait). -/
inductive Mat where
  | lambertian (albedo : Vec3)
  | metal (albedo : Vec3) (fuzz : Elem)
  | dielectric (refraction_index : Elem)

/-- `Lambertian::new`. -/
def Lambertian.new (albedo : Vec3) : Mat := Mat.lambertian albedo

/-- `Metal::new` — stores the albedo and the fuzz, the latter run through
`if fuzz > 1.0 { 1.0 } else { fuzz }`. -/
noncomputable def Metal.new (albedo : Vec3) (fuzz : Elem) : Mat :=
  Mat.metal albedo (if fuzz > 1 then 1 else fuzz)

/-- `Dielectric::new`. -/
def Dielectric.new (refraction_index : Elem) : Mat :=
  Mat.dielectric refraction_index

/-- The fuzz value stored in a `Metal`; `0` for the other variants. -/
def Mat.storedFuzz : Mat → Elem
  | .metal _ f => f
  | _ => 0

/-- `HitRecord` — time, contact point, normal and the material hit. -/
structure HitRecord where
  time : Elem
  point : Vec3
  normal : Vec3
  material : Mat

/-- `MaterialResponse` — a scattered ray with attenuation, or absorption. -/
inductive MaterialResponse where
  | Scattered (attenuation : Vec3) (ray : Ray)
  | Absorbed

/-- Outcomes of the random draws a single `scatter` call may make:
the vector produced by the `random_in_unit_sphere` rejection sampler and
the uniform scalar drawn by `rand::random::<Elem>()`. -/
structure RandDraw where
  unitSphere : Vec3
  uniform : Elem

/-- `reflect(v, normal) = v - 2 * dot2(v, normal) * normal`. -/
def reflect (v normal : Vec3) : Vec3 := v - 2 * Vec3.dot2 v normal * normal

/-- `refract` — Snell refraction; `None` on total internal reflection. -/
noncomputable def refract (v n : Vec3) (ni_over_nt : Elem) : Option Vec3 :=
  let uv := Vec3.unit_vector v
  let dt := Vec3.dot2 uv n
  let discr := 1 - ni_over_nt * ni_over_nt * (1 - dt * dt)
  if discr > 0 then
    some (ni_over_nt * (uv - n * dt) - n * Real.sqrt discr)
  else
    none

/-- `schlick` — Schlick's reflectance approximation. -/
noncomputable def schlick (cosine ref_idx : Elem) : Elem :=
  let r0 := (1 - ref_idx) / (1 + ref_idx)
  let r0 := r0 * r0
  r0 + (1 - r0) * (1 - cosine) ^ (5 : ℕ)

/-- `Material::scatter`, dispatching over the three material structs of
`src/material.rs`; `rd` supplies the outcomes of the call's random draws. -/
noncomputable def scatter (m : Mat) (rd : RandDraw) (ray : Ray)
    (hr : HitRecord) : MaterialResponse :=
  match m with
  | .lambertian albedo =>
      let target := hr.point + hr.normal + rd.unitSphere
      MaterialResponse.Scattered albedo (Ray.mk hr.point (target - hr.point))
  | .metal albedo fuzz =>
      let reflected_dir := reflect (Vec3.unit_vector ray.direction) hr.normal
      let scattered := Ray.mk hr.point (reflected_dir + fuzz * rd.unitSphere)
      if Vec3.dot scattered.direction hr.normal > 0 then
        MaterialResponse.Scattered albedo scattered
      else
        MaterialResponse.Absorbed
  | .dielectric refraction_index =>
      let d1 := Vec3.dot2 hr.normal ray.direction
      let onc : Vec3 × Elem × Elem :=
        if d1 > 0 then
          (-hr.normal, refraction_index,
            refraction_index * d1 / ray.direction.length)
        else
          (hr.normal, 1 / refraction_index, -d1 / ray.direction.length)
      let outward_normal := onc.1
      let ni_over_nt := onc.2.1
      let cosine := onc.2.2
      let reflected_ray := Ray.mk hr.point (reflect ray.direction hr.normal)
      let sc_ray :=
        match refract ray.direction outward_normal ni_over_nt with
        | some refracted =>
            let reflect_prob := schlick cosine refraction_index
            if rd.uniform < reflect_prob then reflected_ray
            else Ray.mk hr.point refracted
        | none => reflected_ray
      MaterialResponse.Scattered (Vec3.mk 1 1 1) sc_ray

/-- `Sphere` — center, radius, material. -/
structure Sphere where
  center : Vec3
  radius : Elem
  material : Mat

/-- `impl Hitable for Sphere` — quadratic ray/sphere intersection. -/
noncomputable def sphereHit (s : Sphere) (ray : Ray) (t_min t_max : Elem) :
    Option HitRecord :=
  let oc := ray.origin - s.center
  let dir := ray.direction
  let a := Vec3.dot dir dir
  let b := Vec3.dot oc dir
  let c := Vec3.dot oc oc - s.radius * s.radius
  let discriminant := b * b - a * c
  if discriminant > 0 then
    let mkHitRecord := fun t =>
      let p := ray.point_at_parameter t
      some (HitRecord.mk t p ((p - s.center) / s.radius) s.material)
    let t_small := (-b - Real.sqrt discriminant) / a
    let t_big := (-b + Real.sqrt discriminant) / a
    if t_small > t_min ∧ t_small < t_max then
      mkHitRecord t_small
    else if t_big > t_min ∧ t_big < t_max then
      mkHitRecord t_big
    else
      none
  else
    none

/-- Rust's `Iterator::min_by` over hit records compared by `time`
(keeps the earliest minimal element). -/
noncomputable def minByTime : List HitRecord → Option HitRecord
  | [] => none
  | h :: t => some (t.foldl (fun acc y => if y.time < acc.time then y else acc) h)

/-- `impl<T: Hitable> Hitable for [T]` — `filter_map` every member's hit,
then `min_by` the `time` field. -/
noncomputable def hitList (l : List Sphere) (ray : Ray) (t_min t_max : Elem) :
    Option HitRecord :=
  minByTime (l.filterMap (fun h => sphereHit h ray t_min t_max))


/-- `f32::MAX` — the upper end of the hit interval used by `color`
(exactly `2^128 - 2^104`). -/
def f32MAX : Elem := 340282346638528859811704183484516925440

/-- `color` from `src/main.rs` — the recursive path-color estimator.
`ρ` supplies the outcomes of the random draws of the scatter call made at
each depth. -/
noncomputable def color (ρ : ℕ → RandDraw) (world : List Sphere) (ray : Ray)
    (depth : ℕ) : Vec3 :=
  match hitList world ray 0.001 f32MAX with
  | some hit =>
      if h : depth < 50 then
        match scatter hit.material (ρ depth) ray hit with
        | .Absorbed => Vec3.zero
        | .Scattered attenuation r => attenuation * color ρ world r (depth + 1)
      else
        Vec3.zero
  | none =>
      let unit_direction := Vec3.unit_vector ray.direction
      let t := 0.5 * (unit_direction.y + 1)
      let white := Vec3.mk 1 1 1
      let blue := Vec3.mk 0.5 0.7 1.0
      (1 - t) * white + t * blue
termination_by 50 - depth
decreasing_by omega

/-- Instrumentation of `color`: the number of `Material::scatter`
invocations a call performs (one per recursion level entered). -/
noncomputable def scatterCalls (ρ : ℕ → RandDraw) (world : List Sphere)
    (ray : Ray) (depth : ℕ) : ℕ :=
  match hitList world ray 0.001 f32MAX with
  | some hit =>
      if h : depth < 50 then
        1 + (match scatter hit.material (ρ depth) ray hit with
          | .Absorbed => 0
          | .Scattered _ r => scatterCalls ρ world r (depth + 1))
      else 0
  | none => 0
termination_by 50 - depth
decreasing_by omega

/-- Rust's saturating `as u32` cast applied to a float.  For negative
arguments truncation toward zero followed by the saturation at `0` agrees
with `max 0 ⌊x⌋`, so the floor form is exact over the whole real line. -/
noncomputable def toU32 (x : Elem) : ℤ := min 4294967295 (max 0 ⌊x⌋)

/-- The per-pixel emission of `main`: sum the samples, divide by the sample
count, `sqrt_coords` gamma correction, scale by `255.99`, cast each channel
`as u32`. -/
noncomputable def pixelOut (samples : List Vec3) : ℤ × ℤ × ℤ :=
  let ns : Elem := samples.length
  let col := samples.foldl (· + ·) Vec3.zero
  let col := col / ns
  let col := col.sqrt_coords
  let col := col * (255.99 : Elem)
  (toU32 col.r, toU32 col.g, toU32 col.b)

/-- The quadratic coefficient `a = D·D` of `Sphere::hit`. -/
def hitA (s : Sphere) (ray : Ray) : Elem :=
  Vec3.dot ray.direction ray.direction

/-- The quadratic coefficient `b = (O−C)·D` of `Sphere::hit`. -/
def hitB (s : Sphere) (ray : Ray) : Elem :=
  Vec3.dot (ray.origin - s.center) ray.direction

/-- The quadratic coefficient `c = (O−C)·(O−C) − r²` of `Sphere::hit`. -/
def hitC (s : Sphere) (ray : Ray) : Elem :=
  Vec3.dot (ray.origin - s.center) (ray.origin - s.center) -
    s.radius * s.radius

/-- The discriminant `b² − a·c` of `Sphere::hit`. -/
def hitDisc (s : Sphere) (ray : Ray) : Elem :=
  hitB s ray * hitB s ray - hitA s ray * hitC s ray

/-- The smaller candidate root `(-b − √discriminant) / a` of `Sphere::hit`. -/
noncomputable def hitTsmall (s : Sphere) (ray : Ray) : Elem :=
  (-hitB s ray - Real.sqrt (hitDisc s ray)) / hitA s ray

/-- The larger candidate root `(-b + √discriminant) / a` of `Sphere::hit`. -/
noncomputable def hitTbig (s : Sphere) (ray : Ray) : Elem :=
  (-hitB s ray + Real.sqrt (hitDisc s ray)) / hitA s ray

/-- The record `Sphere::hit` builds for an accepted root `t`
(`mk_hit_record` in the source). -/
noncomputable def mkHitRec (s : Sphere) (ray : Ray) (t : Elem) : HitRecord :=
  HitRecord.mk t (ray.point_at_parameter t)
    ((ray.point_at_parameter t - s.center) / s.radius) s.material

/-- `sphereHit` restated through the named quadratic quantities; equal to
the definition by unfolding. -/
theorem sphereHit_eq (s : Sphere) (ray : Ray) (t_min t_max : Elem) :
    sphereHit s ray t_min t_max =
      if hitDisc s ray > 0 then
        if hitTsmall s ray > t_min ∧ hitTsmall s ray < t_max then
          some (mkHitRec s ray (hitTsmall s ray))
        else if hitTbig s ray > t_min ∧ hitTbig s ray < t_max then
          some (mkHitRec s ray (hitTbig s ray))
        else none
      else none := rfl

/-- The effective refraction ratio `ni_over_nt` chosen by
`Dielectric::scatter` from the side test `normal·direction > 0`. -/
noncomputable def refractionRatio (ri : Elem) (ray : Ray) (hr : HitRecord) :
    Elem :=
  if Vec3.dot2 hr.normal ray.direction > 0 then ri else 1 / ri

/-- The refraction discriminant `1 − ratio²·(1 − cosθ²)` tested by
`refract`, with `cosθ = unit(direction)·normal`. -/
noncomputable def refractionDiscr (ri : Elem) (ray : Ray) (hr : HitRecord) :
    Elem :=
  let dt := Vec3.dot2 (Vec3.unit_vector ray.direction) hr.normal
  1 - refractionRatio ri ray hr * refractionRatio ri ray hr * (1 - dt * dt)

/-- Componentwise membership of a color in the unit cube `[0,1]³`. -/
def InUnit (v : Vec3) : Prop :=
  0 ≤ v.x ∧ v.x ≤ 1 ∧ 0 ≤ v.y ∧ v.y ≤ 1 ∧ 0 ≤ v.z ∧ v.z ≤ 1

/-- A material whose scatter attenuation always lies in the unit cube:
the albedo of a Lambertian or Metal, anything for a Dielectric (whose
attenuation is the constant `(1,1,1)`). -/
def MatBounded : Mat → Prop
  | .lambertian albedo => InUnit albedo
  | .metal albedo _ => InUnit albedo
  | .dielectric _ => True

/-- Every material in the scene has a unit-cube attenuation. -/
def AlbedoBounded (l : List Sphere) : Prop := ∀ s ∈ l, MatBounded s.material

/-! ### Helper lemmas -/

theorem dot_self_nonneg (v : Vec3) : 0 ≤ Vec3.dot v v := by
  have hx := mul_self_nonneg v.x
  have hy := mul_self_nonneg v.y
  have hz := mul_self_nonneg v.z
  unfold Vec3.dot
  linarith

theorem dot_self_eq_zero {v : Vec3} (h : Vec3.dot v v = 0) :
    v.x = 0 ∧ v.y = 0 ∧ v.z = 0 := by
  have hx := mul_self_nonneg v.x
  have hy := mul_self_nonneg v.y
  have hz := mul_self_nonneg v.z
  unfold Vec3.dot at h
  exact ⟨mul_self_eq_zero.mp (by linarith), mul_self_eq_zero.mp (by linarith),
    mul_self_eq_zero.mp (by linarith)⟩

theorem hitA_pos (s : Sphere) (ray : Ray) (h : 0 < hitDisc s ray) :
    0 < hitA s ray := by
  rcases lt_or_eq_of_le (dot_self_nonneg ray.direction) with hp | hz
  · exact hp
  · exfalso
    obtain ⟨hx, hy, hz'⟩ := dot_self_eq_zero hz.symm
    have hb : hitB s ray = 0 := by
      unfold hitB Vec3.dot
      rw [hx, hy, hz']
      ring
    have ha : hitA s ray = 0 := by
      unfold hitA Vec3.dot
      rw [hx, hy, hz']
      ring
    unfold hitDisc at h
    rw [ha, hb] at h
    simp at h

theorem dot2_neg_right (v w : Vec3) : Vec3.dot2 v (-w) = -Vec3.dot2 v w := by
  unfold Vec3.dot2
  simp
  ring

/-- The folding function of the aggregate `min_by` keeps an element of the
initial-plus-rest list. -/
theorem foldl_min_mem (h : HitRecord) (t : List HitRecord) :
    t.foldl (fun acc y => if y.time < acc.time then y else acc) h ∈ h :: t := by
  induction t generalizing h with
  | nil => simp
  | cons a t ih =>
    simp only [List.foldl_cons]
    rcases List.mem_cons.mp (ih (if a.time < h.time then a else h)) with h1 | h1
    · rw [h1]
      split_ifs
      · exact List.mem_cons_of_mem _ (List.mem_cons_self _ _)
      · exact List.mem_cons_self _ _
    · exact List.mem_cons_of_mem _ (List.mem_cons_of_mem _ h1)

/-- The folding function of the aggregate `min_by` yields a minimal `time`. -/
theorem foldl_min_le (h : HitRecord) (t : List HitRecord) :
    ∀ y ∈ h :: t,
      (t.foldl (fun acc y => if y.time < acc.time then y else acc) h).time ≤
        y.time := by
  induction t generalizing h with
  | nil =>
    intro y hy
    rcases List.mem_cons.mp hy with rfl | h'
    · exact le_refl _
    · simp at h'
  | cons a t ih =>
    intro y hy
    simp only [List.foldl_cons]
    have hml : (if a.time < h.time then a else h).time ≤ h.time ∧
        (if a.time < h.time then a else h).time ≤ a.time := by
      split_ifs with hlt
      · exact ⟨le_of_lt hlt, le_refl _⟩
      · exact ⟨le_refl _, not_lt.mp hlt⟩
    rcases List.mem_cons.mp hy with rfl | hy'
    · exact le_trans (ih _ _ (List.mem_cons_self _ _)) hml.1
    rcases List.mem_cons.mp hy' with rfl | hy''
    · exact le_trans (ih _ _ (List.mem_cons_self _ _)) hml.2
    · exact ih _ y (List.mem_cons_of_mem _ hy'')

theorem minByTime_eq_none {l : List HitRecord} :
    minByTime l = none ↔ l = [] := by
  cases l <;> simp [minByTime]

theorem minByTime_mem {l : List HitRecord} {x : HitRecord}
    (h : minByTime l = some x) : x ∈ l := by
  cases l with
  | nil => simp [minByTime] at h
  | cons a t =>
    simp only [minByTime, Option.some.injEq] at h
    exact h ▸ foldl_min_mem a t

theorem minByTime_le {l : List HitRecord} {x : HitRecord}
    (h : minByTime l = some x) : ∀ y ∈ l, x.time ≤ y.time := by
  cases l with
  | nil => simp [minByTime] at h
  | cons a t =>
    simp only [minByTime, Option.some.injEq] at h
    exact h ▸ foldl_min_le a t

theorem hitList_none_iff (l : List Sphere) (ray : Ray) (t_min t_max : Elem) :
    hitList l ray t_min t_max = none ↔
      ∀ s ∈ l, sphereHit s ray t_min t_max = none := by
  unfold hitList
  rw [minByTime_eq_none, List.filterMap_eq_nil_iff]

theorem hitList_some {l : List Sphere} {ray : Ray} {t_min t_max : Elem}
    {hr : HitRecord} (h : hitList l ray t_min t_max = some hr) :
    (∃ s ∈ l, sphereHit s ray t_min t_max = some hr) ∧
      ∀ s ∈ l, ∀ hr', sphereHit s ray t_min t_max = some hr' →
        hr.time ≤ hr'.time := by
  unfold hitList at h
  constructor
  · obtain ⟨s, hs, he⟩ := List.mem_filterMap.mp (minByTime_mem h)
    exact ⟨s, hs, he⟩
  · intro s hs hr' he
    exact minByTime_le h hr' (List.mem_filterMap.mpr ⟨s, hs, he⟩)

/-- `Dielectric::scatter` restated with the side-dependent tuple of
outward normal, ratio and cosine resolved into conditionals. -/
theorem scatter_dielectric_eq (ri : Elem) (rd : RandDraw) (ray : Ray)
    (hr : HitRecord) :
    scatter (Mat.dielectric ri) rd ray hr =
      MaterialResponse.Scattered (Vec3.mk 1 1 1)
        (match refract ray.direction
            (if Vec3.dot2 hr.normal ray.direction > 0 then -hr.normal
             else hr.normal)
            (if Vec3.dot2 hr.normal ray.direction > 0 then ri else 1 / ri) with
         | some refracted =>
             if rd.uniform < schlick
                 (if Vec3.dot2 hr.normal ray.direction > 0 then
                   ri * Vec3.dot2 hr.normal ray.direction / ray.direction.length
                  else -Vec3.dot2 hr.normal ray.direction / ray.direction.length)
                 ri
             then Ray.mk hr.point (reflect ray.direction hr.normal)
             else Ray.mk hr.point refracted
         | none => Ray.mk hr.point (reflect ray.direction hr.normal)) := by
  by_cases hb : Vec3.dot2 hr.normal ray.direction > 0 <;>
    simp [scatter, hb]

/-- `scatterCalls` is bounded by the remaining depth budget. -/
theorem scatterCalls_le_aux (ρ : ℕ → RandDraw) (world : List Sphere) :
    ∀ (n : ℕ) (ray : Ray) (depth : ℕ), 50 - depth ≤ n →
      scatterCalls ρ world ray depth ≤ 50 - depth := by
  intro n
  induction n with
  | zero =>
    intro ray depth hd
    have h50 : ¬ depth < 50 := by omega
    rw [scatterCalls.eq_def]
    cases hhit : hitList world ray 0.001 f32MAX with
    | none => simp
    | some hit => simp [dif_neg h50]
  | succ n ih =>
    intro ray depth hd
    rw [scatterCalls.eq_def]
    cases hhit : hitList world ray 0.001 f32MAX with
    | none => simp
    | some hit =>
      by_cases h50 : depth < 50
      · simp only [dif_pos h50]
        cases hsc : scatter hit.material (ρ depth) ray hit with
        | Absorbed => simp; omega
        | Scattered att r =>
          have := ih r (depth + 1) (by omega)
          simp only []
          omega
      · simp [dif_neg h50]

/-- `color` at an exhausted depth budget with a hit returns black. -/
theorem color_cutoff {ρ : ℕ → RandDraw} {world : List Sphere} {ray : Ray}
    {depth : ℕ} (h50 : 50 ≤ depth) {hr : HitRecord}
    (hhit : hitList world ray 0.001 f32MAX = some hr) :
    color ρ world ray depth = Vec3.zero ∧
      scatterCalls ρ world ray depth = 0 := by
  constructor
  · rw [color.eq_def, hhit]
    simp [dif_neg (show ¬ depth < 50 by omega)]
  · rw [scatterCalls.eq_def, hhit]
    simp [dif_neg (show ¬ depth < 50 by omega)]

theorem zero_InUnit : InUnit Vec3.zero := by
  norm_num [InUnit, Vec3.zero]

theorem InUnit.mul {a b : Vec3} (ha : InUnit a) (hb : InUnit b) :
    InUnit (a * b) := by
  obtain ⟨a1, a2, a3, a4, a5, a6⟩ := ha
  obtain ⟨b1, b2, b3, b4, b5, b6⟩ := hb
  refine ⟨mul_nonneg a1 b1, ?_, mul_nonneg a3 b3, ?_, mul_nonneg a5 b5, ?_⟩ <;>
    simp only [Vec3.mul_x, Vec3.mul_y, Vec3.mul_z] <;> nlinarith

theorem abs_y_le_length (v : Vec3) : |v.y| ≤ v.length := by
  unfold Vec3.length Vec3.length_squared
  have h : v.y * v.y ≤ v.x * v.x + v.y * v.y + v.z * v.z := by
    nlinarith [mul_self_nonneg v.x, mul_self_nonneg v.z]
  calc |v.y| = Real.sqrt (v.y * v.y) := (Real.sqrt_mul_self_eq_abs v.y).symm
  _ ≤ Real.sqrt (v.x * v.x + v.y * v.y + v.z * v.z) := Real.sqrt_le_sqrt h

theorem unit_y_bounds (v : Vec3) :
    -1 ≤ (Vec3.unit_vector v).y ∧ (Vec3.unit_vector v).y ≤ 1 := by
  unfold Vec3.unit_vector
  simp only [Vec3.divs_y]
  rcases lt_or_eq_of_le (Real.sqrt_nonneg v.length_squared) with hl | hl
  · have hl' : 0 < v.length := hl
    obtain ⟨hlo, hhi⟩ := abs_le.mp (abs_y_le_length v)
    constructor
    · rw [le_div_iff hl']
      linarith
    · rw [div_le_one hl']
      exact hhi
  · have hl' : v.length = 0 := hl.symm
    rw [hl']
    norm_num

theorem background_InUnit (v : Vec3) :
    InUnit ((1 - 0.5 * ((Vec3.unit_vector v).y + 1)) * Vec3.mk 1 1 1 +
      (0.5 * ((Vec3.unit_vector v).y + 1)) * Vec3.mk 0.5 0.7 1.0) := by
  obtain ⟨h1, h2⟩ := unit_y_bounds v
  unfold InUnit
  simp only [Vec3.add_x, Vec3.add_y, Vec3.add_z, Vec3.smul_x, Vec3.smul_y,
    Vec3.smul_z, Vec3.mk_x, Vec3.mk_y, Vec3.mk_z]
  refine ⟨?_, ?_, ?_, ?_, ?_, ?_⟩ <;> nlinarith

theorem sphereHit_material {s : Sphere} {ray : Ray} {t_min t_max : Elem}
    {hr : HitRecord} (h : sphereHit s ray t_min t_max = some hr) :
    hr.material = s.material := by
  rw [sphereHit_eq] at h
  split_ifs at h <;> cases h <;> rfl

theorem hitList_matBounded {l : List Sphere} {ray : Ray} {t_min t_max : Elem}
    {hr : HitRecord} (hb : AlbedoBounded l)
    (h : hitList l ray t_min t_max = some hr) : MatBounded hr.material := by
  obtain ⟨s, hs, he⟩ := (hitList_some h).1
  rw [sphereHit_material he]
  exact hb s hs

theorem scatter_attenuation_InUnit {m : Mat} {rd : RandDraw} {ray : Ray}
    {hr : HitRecord} {att : Vec3} {out : Ray} (hm : MatBounded m)
    (h : scatter m rd ray hr = MaterialResponse.Scattered att out) :
    InUnit att := by
  cases m with
  | lambertian albedo =>
    simp only [scatter] at h
    cases h
    exact hm
  | metal albedo fuzz =>
    simp only [scatter] at h
    split_ifs at h <;> cases h
    exact hm
  | dielectric ri =>
    rw [scatter_dielectric_eq] at h
    cases h
    norm_num [InUnit]

/-- Unfolding of `color` at a hit. -/
theorem color_some {ρ : ℕ → RandDraw} {world : List Sphere} {ray : Ray}
    {hit : HitRecord} (depth : ℕ)
    (hhit : hitList world ray 0.001 f32MAX = some hit) :
    color ρ world ray depth =
      if _h : depth < 50 then
        match scatter hit.material (ρ depth) ray hit with
        | .Absorbed => Vec3.zero
        | .Scattered attenuation r => attenuation * color ρ world r (depth + 1)
      else Vec3.zero := by
  rw [color.eq_def, hhit]

/-- Unfolding of `color` at a miss: the background gradient. -/
theorem color_none {ρ : ℕ → RandDraw} {world : List Sphere} {ray : Ray}
    (depth : ℕ) (h : hitList world ray 0.001 f32MAX = none) :
    color ρ world ray depth =
      (1 - 0.5 * ((Vec3.unit_vector ray.direction).y + 1)) * Vec3.mk 1 1 1 +
        (0.5 * ((Vec3.unit_vector ray.direction).y + 1)) * Vec3.mk 0.5 0.7 1.0 := by
  rw [color.eq_def, h]

/-- Unfolding of `scatterCalls` at a hit. -/
theorem scatterCalls_some {ρ : ℕ → RandDraw} {world : List Sphere} {ray : Ray}
    {hit : HitRecord} (depth : ℕ)
    (hhit : hitList world ray 0.001 f32MAX = some hit) :
    scatterCalls ρ world ray depth =
      if _h : depth < 50 then
        1 + (match scatter hit.material (ρ depth) ray hit with
          | .Absorbed => 0
          | .Scattered _ r => scatterCalls ρ world r (depth + 1))
      else 0 := by
  rw [scatterCalls.eq_def, hhit]

/-- Every value the path-color estimator can produce lies in the unit
cube, provided every material of the scene has a unit-cube attenuation. -/
theorem color_InUnit_aux (ρ : ℕ → RandDraw) {world : List Sphere}
    (hb : AlbedoBounded world) :
    ∀ (n : ℕ) (ray : Ray) (depth : ℕ), 50 - depth ≤ n →
      InUnit (color ρ world ray depth) := by
  intro n
  induction n with
  | zero =>
    intro ray depth hd
    cases hhit : hitList world ray 0.001 f32MAX with
    | none => rw [color_none depth hhit]; exact background_InUnit _
    | some hit =>
      rw [color_some depth hhit, dif_neg (show ¬ depth < 50 by omega)]
      exact zero_InUnit
  | succ n ih =>
    intro ray depth hd
    cases hhit : hitList world ray 0.001 f32MAX with
    | none => rw [color_none depth hhit]; exact background_InUnit _
    | some hit =>
      by_cases h50 : depth < 50
      · rw [color_some depth hhit, dif_pos h50]
        cases hsc : scatter hit.material (ρ depth) ray hit with
        | Absorbed => exact zero_InUnit
        | Scattered att r =>
          exact (scatter_attenuation_InUnit (hitList_matBounded hb hhit)
            hsc).mul (ih r (depth + 1) (by omega))
      · rw [color_some depth hhit, dif_neg h50]
        exact zero_InUnit

theorem foldl_add_x (l : List Vec3) (init : Vec3) :
    (l.foldl (· + ·) init).x = init.x + (l.map Vec3.x).sum := by
  induction l generalizing init with
  | nil => simp
  | cons a t ih =>
    simp only [List.foldl_cons, List.map_cons, List.sum_cons, ih, Vec3.add_x]
    ring

theorem foldl_add_y (l : List Vec3) (init : Vec3) :
    (l.foldl (· + ·) init).y = init.y + (l.map Vec3.y).sum := by
  induction l generalizing init with
  | nil => simp
  | cons a t ih =>
    simp only [List.foldl_cons, List.map_cons, List.sum_cons, ih, Vec3.add_y]
    ring

theorem foldl_add_z (l : List Vec3) (init : Vec3) :
    (l.foldl (· + ·) init).z = init.z + (l.map Vec3.z).sum := by
  induction l generalizing init with
  | nil => simp
  | cons a t ih =>
    simp only [List.foldl_cons, List.map_cons, List.sum_cons, ih, Vec3.add_z]
    ring

theorem list_sum_bounds (l : List ℝ) (h : ∀ a ∈ l, 0 ≤ a ∧ a ≤ 1) :
    0 ≤ l.sum ∧ l.sum ≤ l.length := by
  induction l with
  | nil => simp
  | cons a t ih =>
    obtain ⟨h0, h1⟩ := h a (List.mem_cons_self a t)
    obtain ⟨ih0, ih1⟩ := ih fun b hb => h b (List.mem_cons_of_mem a hb)
    simp only [List.sum_cons, List.length_cons]
    push_cast
    constructor <;> linarith

/-- The emitted value of one channel: cast, floor form and `[0,255]`
range, for a channel sum in `[0, n]` with `n` samples. -/
theorem gamma_channel (x n : Elem) (h0 : 0 ≤ x) (hn : 0 < n) (h1 : x ≤ n) :
    toU32 (255.99 * Real.sqrt (x / n)) = ⌊Real.sqrt (x / n) * 255.99⌋ ∧
    0 ≤ ⌊Real.sqrt (x / n) * 255.99⌋ ∧ ⌊Real.sqrt (x / n) * 255.99⌋ ≤ 255 := by
  have havg0 : 0 ≤ x / n := div_nonneg h0 (le_of_lt hn)
  have havg1 : x / n ≤ 1 := (div_le_one hn).mpr h1
  have hs0 : 0 ≤ Real.sqrt (x / n) := Real.sqrt_nonneg _
  have hs1 : Real.sqrt (x / n) ≤ 1 := Real.sqrt_le_one.mpr havg1
  have hv0 : (0 : ℝ) ≤ Real.sqrt (x / n) * 255.99 := by nlinarith
  have hv1 : Real.sqrt (x / n) * 255.99 ≤ 255.99 := by nlinarith
  have hf0 : 0 ≤ ⌊Real.sqrt (x / n) * 255.99⌋ := Int.le_floor.mpr (by exact_mod_cast hv0)
  have hf1 : ⌊Real.sqrt (x / n) * 255.99⌋ ≤ 255 := by
    have hlt : ⌊Real.sqrt (x / n) * 255.99⌋ < 256 := by
      rw [Int.floor_lt]
      push_cast
      linarith
    omega
  refine ⟨?_, hf0, hf1⟩
  unfold toU32
  rw [mul_comm]
  omega

/-! ### Claim theorems -/

/-- C1: `Sphere::hit` returns no hit when the discriminant `b² − a·c`
(with `a = D·D`, `b = (O−C)·D`, `c = (O−C)·(O−C) − r²`) is `≤ 0`;
otherwise it returns the smaller root `(-b − √disc)/a` when that root lies
strictly inside `(t_min, t_max)`, else the larger root `(-b + √disc)/a`
when that one lies strictly inside `(t_min, t_max)`, else no hit. -/
theorem sphere_hit_root_selection (s : Sphere) (ray : Ray)
    (t_min t_max : Elem) :
    (hitDisc s ray ≤ 0 → sphereHit s ray t_min t_max = none) ∧
    (0 < hitDisc s ray →
      hitTsmall s ray ≤ hitTbig s ray ∧
      (t_min < hitTsmall s ray ∧ hitTsmall s ray < t_max →
        sphereHit s ray t_min t_max =
          some (mkHitRec s ray (hitTsmall s ray))) ∧
      (¬(t_min < hitTsmall s ray ∧ hitTsmall s ray < t_max) →
        t_min < hitTbig s ray ∧ hitTbig s ray < t_max →
        sphereHit s ray t_min t_max = some (mkHitRec s ray (hitTbig s ray))) ∧
      (¬(t_min < hitTsmall s ray ∧ hitTsmall s ray < t_max) →
        ¬(t_min < hitTbig s ray ∧ hitTbig s ray < t_max) →
        sphereHit s ray t_min t_max = none)) := by
  rw [sphereHit_eq]
  constructor
  · intro h
    rw [if_neg (not_lt.mpr h)]
  · intro h
    refine ⟨?_, ?_, ?_, ?_⟩
    · have ha := hitA_pos s ray h
      have hs := Real.sqrt_nonneg (hitDisc s ray)
      unfold hitTsmall hitTbig
      exact (div_le_div_right ha).mpr (by linarith)
    · intro hc
      rw [if_pos h, if_pos hc]
    · intro h1 h2
      rw [if_pos h, if_neg h1, if_pos h2]
    · intro h1 h2
      rw [if_pos h, if_neg h1, if_neg h2]

/-- Witness for C1: a ray from `(0,0,-2)` toward `(0,0,1)` against the unit
sphere at the origin has discriminant `1 > 0` and hits at the smaller
root. -/
theorem sphere_hit_root_selection_witness :
    0 < hitDisc (Sphere.mk (Vec3.mk 0 0 0) 1 (Mat.dielectric 1))
        (Ray.mk (Vec3.mk 0 0 (-2)) (Vec3.mk 0 0 1)) ∧
    sphereHit (Sphere.mk (Vec3.mk 0 0 0) 1 (Mat.dielectric 1))
        (Ray.mk (Vec3.mk 0 0 (-2)) (Vec3.mk 0 0 1)) 0 10 =
      some (mkHitRec (Sphere.mk (Vec3.mk 0 0 0) 1 (Mat.dielectric 1))
        (Ray.mk (Vec3.mk 0 0 (-2)) (Vec3.mk 0 0 1))
        (hitTsmall (Sphere.mk (Vec3.mk 0 0 0) 1 (Mat.dielectric 1))
          (Ray.mk (Vec3.mk 0 0 (-2)) (Vec3.mk 0 0 1)))) := by
  have hd : 0 < hitDisc (Sphere.mk (Vec3.mk 0 0 0) 1 (Mat.dielectric 1))
      (Ray.mk (Vec3.mk 0 0 (-2)) (Vec3.mk 0 0 1)) := by
    norm_num [hitDisc, hitA, hitB, hitC, Vec3.dot]
  have hts : hitTsmall (Sphere.mk (Vec3.mk 0 0 0) 1 (Mat.dielectric 1))
      (Ray.mk (Vec3.mk 0 0 (-2)) (Vec3.mk 0 0 1)) = 1 := by
    have : hitDisc (Sphere.mk (Vec3.mk 0 0 0) 1 (Mat.dielectric 1))
        (Ray.mk (Vec3.mk 0 0 (-2)) (Vec3.mk 0 0 1)) = 1 := by
      norm_num [hitDisc, hitA, hitB, hitC, Vec3.dot]
    norm_num [hitTsmall, this, hitA, hitB, Vec3.dot, Real.sqrt_one]
  exact ⟨hd,
    ((sphere_hit_root_selection _ _ 0 10).2 hd).2.1 (by rw [hts]; norm_num)⟩

/-- C4 counterexample: `Metal::new` only clamps from above, so a negative
fuzz argument is stored unchanged — the stored value can be below `0`,
refuting the claim that it always lies in `[0,1]`. -/
theorem metal_new_keeps_negative_fuzz :
    Mat.storedFuzz (Metal.new (Vec3.mk 0 0 0) (-1)) < 0 := by
  norm_num [Metal.new, Mat.storedFuzz]

/-- C4 (amended): `Metal::new` clamps the fuzz from above only — arguments
above `1` are stored as `1`, every other argument is stored unchanged; the
stored value is never above `1`, and it lies in `[0,1]` whenever the
argument is nonnegative. -/
theorem metal_new_fuzz_clamped_above (albedo : Vec3) (fuzz : Elem) :
    Mat.storedFuzz (Metal.new albedo fuzz) ≤ 1 ∧
    (1 < fuzz → Mat.storedFuzz (Metal.new albedo fuzz) = 1) ∧
    (fuzz ≤ 1 → Mat.storedFuzz (Metal.new albedo fuzz) = fuzz) ∧
    (0 ≤ fuzz → 0 ≤ Mat.storedFuzz (Metal.new albedo fuzz)) := by
  unfold Metal.new Mat.storedFuzz
  split_ifs with h1
  · exact ⟨le_refl 1, fun _ => rfl, fun h2 => absurd h1 (not_lt.mpr h2),
      fun _ => zero_le_one⟩
  · push_neg at h1
    exact ⟨h1, fun h2 => absurd h2 (not_lt.mpr h1), fun _ => rfl, fun h0 => h0⟩

/-- Witness for C4 (amended): a fuzz argument of `2` is stored as `1`. -/
theorem metal_new_fuzz_clamped_above_witness :
    Mat.storedFuzz (Metal.new (Vec3.mk 0 0 0) 2) = 1 :=
  (metal_new_fuzz_clamped_above (Vec3.mk 0 0 0) 2).2.1 (by norm_num)

/-- C7: `Metal::scatter` returns `Scattered` exactly when the outgoing
direction — the reflection of the unit incoming direction about the normal,
perturbed by `fuzz` times the unit-sphere sample — has strictly positive
dot product with the hit normal, and `Absorbed` otherwise; when scattered
the attenuation is the albedo, and `reflect` computes `d − 2·(d·n)·n`. -/
theorem metal_scatter_characterization (albedo : Vec3) (fuzz : Elem)
    (rd : RandDraw) (ray : Ray) (hr : HitRecord) :
    (0 < Vec3.dot (reflect (Vec3.unit_vector ray.direction) hr.normal +
        fuzz * rd.unitSphere) hr.normal →
      scatter (Mat.metal albedo fuzz) rd ray hr =
        MaterialResponse.Scattered albedo
          (Ray.mk hr.point (reflect (Vec3.unit_vector ray.direction)
            hr.normal + fuzz * rd.unitSphere))) ∧
    (¬ 0 < Vec3.dot (reflect (Vec3.unit_vector ray.direction) hr.normal +
        fuzz * rd.unitSphere) hr.normal →
      scatter (Mat.metal albedo fuzz) rd ray hr =
        MaterialResponse.Absorbed) ∧
    reflect (Vec3.unit_vector ray.direction) hr.normal =
      Vec3.unit_vector ray.direction -
        2 * Vec3.dot2 (Vec3.unit_vector ray.direction) hr.normal *
          hr.normal := by
  refine ⟨?_, ?_, rfl⟩
  · intro h
    simp only [scatter]
    rw [if_pos h]
  · intro h
    simp only [scatter]
    rw [if_neg h]

/-- Witness for C7: a head-on unit ray against normal `(0,0,1)` with fuzz
`0` reflects to `(0,0,1)`, whose dot product with the normal is positive,
so the metal scatters with its albedo. -/
theorem metal_scatter_characterization_witness :
    scatter (Mat.metal (Vec3.mk 0.8 0.8 0.8) 0)
        (RandDraw.mk (Vec3.mk 0 0 0) 0)
        (Ray.mk (Vec3.mk 0 0 1) (Vec3.mk 0 0 (-1)))
        (HitRecord.mk 0 (Vec3.mk 0 0 0) (Vec3.mk 0 0 1)
          (Mat.metal (Vec3.mk 0.8 0.8 0.8) 0)) =
      MaterialResponse.Scattered (Vec3.mk 0.8 0.8 0.8)
        (Ray.mk (Vec3.mk 0 0 0)
          (reflect (Vec3.unit_vector (Vec3.mk 0 0 (-1))) (Vec3.mk 0 0 1) +
            (0 : Elem) * Vec3.mk 0 0 0)) := by
  exact (metal_scatter_characterization (Vec3.mk 0.8 0.8 0.8) 0
    (RandDraw.mk (Vec3.mk 0 0 0) 0)
    (Ray.mk (Vec3.mk 0 0 1) (Vec3.mk 0 0 (-1)))
    (HitRecord.mk 0 (Vec3.mk 0 0 0) (Vec3.mk 0 0 1)
      (Mat.metal (Vec3.mk 0.8 0.8 0.8) 0))).1 (by
        norm_num [reflect, Vec3.dot, Vec3.dot2, Vec3.unit_vector,
          Vec3.length, Vec3.length_squared, Real.sqrt_one])

/-- C3: `Dielectric::scatter` always returns `Scattered` with attenuation
exactly `(1,1,1)`, for every outcome of the internal random draw; and when
the refraction discriminant `1 − ratio²·(1 − cosθ²)` is not positive
(total internal reflection), the outgoing ray is deterministically the
reflection of the incoming direction about the hit normal. -/
theorem dielectric_always_scatters (ri : Elem) (rd : RandDraw) (ray : Ray)
    (hr : HitRecord) :
    (∃ out : Ray, scatter (Mat.dielectric ri) rd ray hr =
      MaterialResponse.Scattered (Vec3.mk 1 1 1) out) ∧
    (refractionDiscr ri ray hr ≤ 0 →
      scatter (Mat.dielectric ri) rd ray hr =
        MaterialResponse.Scattered (Vec3.mk 1 1 1)
          (Ray.mk hr.point (reflect ray.direction hr.normal))) := by
  constructor
  · rw [scatter_dielectric_eq]
    exact ⟨_, rfl⟩
  · intro h
    rw [scatter_dielectric_eq]
    unfold refractionDiscr refractionRatio at h
    by_cases hb : Vec3.dot2 hr.normal ray.direction > 0
    · rw [if_pos hb] at h
      have hn : refract ray.direction (-hr.normal) ri = none := by
        simp only [refract, dot2_neg_right, neg_mul_neg]
        rw [if_neg (not_lt.mpr h)]
      simp only [if_pos hb, hn]
    · rw [if_neg hb] at h
      have hn : refract ray.direction hr.normal (1 / ri) = none := by
        simp only [refract]
        rw [if_neg (not_lt.mpr h)]
      simp only [if_neg hb, hn]

/-- Witness for C3: a grazing ray `(1,0,0)` against normal `(0,0,1)` on a
dielectric with index `0.5` has refraction discriminant `-3 ≤ 0`, so the
scatter is the deterministic reflection with attenuation `(1,1,1)`. -/
theorem dielectric_always_scatters_witness :
    scatter (Mat.dielectric 0.5) (RandDraw.mk (Vec3.mk 0 0 0) 0)
        (Ray.mk (Vec3.mk 0 0 0) (Vec3.mk 1 0 0))
        (HitRecord.mk 0 (Vec3.mk 0 0 0) (Vec3.mk 0 0 1)
          (Mat.dielectric 0.5)) =
      MaterialResponse.Scattered (Vec3.mk 1 1 1)
        (Ray.mk (Vec3.mk 0 0 0)
          (reflect (Vec3.mk 1 0 0) (Vec3.mk 0 0 1))) := by
  exact (dielectric_always_scatters 0.5 (RandDraw.mk (Vec3.mk 0 0 0) 0)
    (Ray.mk (Vec3.mk 0 0 0) (Vec3.mk 1 0 0))
    (HitRecord.mk 0 (Vec3.mk 0 0 0) (Vec3.mk 0 0 1)
      (Mat.dielectric 0.5))).2 (by
        norm_num [refractionDiscr, refractionRatio, Vec3.dot2,
          Vec3.unit_vector, Vec3.length, Vec3.length_squared, Real.sqrt_one])

/-- Concrete evaluation: the unit sphere at the origin, hit by the ray from
`(0,0,-2)` toward `(0,0,1)`, yields the record at `t = 1` for any interval
strictly containing `1`. -/
theorem sphereHit_example_interval (t_min t_max : Elem) (h1 : t_min < 1)
    (h2 : 1 < t_max) :
    sphereHit (Sphere.mk (Vec3.mk 0 0 0) 1 (Mat.dielectric 1))
        (Ray.mk (Vec3.mk 0 0 (-2)) (Vec3.mk 0 0 1)) t_min t_max =
      some (HitRecord.mk 1 (Vec3.mk 0 0 (-1)) (Vec3.mk 0 0 (-1))
        (Mat.dielectric 1)) := by
  have hd : hitDisc (Sphere.mk (Vec3.mk 0 0 0) 1 (Mat.dielectric 1))
      (Ray.mk (Vec3.mk 0 0 (-2)) (Vec3.mk 0 0 1)) = 1 := by
    norm_num [hitDisc, hitA, hitB, hitC, Vec3.dot]
  have hts : hitTsmall (Sphere.mk (Vec3.mk 0 0 0) 1 (Mat.dielectric 1))
      (Ray.mk (Vec3.mk 0 0 (-2)) (Vec3.mk 0 0 1)) = 1 := by
    norm_num [hitTsmall, hd, hitA, hitB, Vec3.dot, Real.sqrt_one]
  rw [sphereHit_eq, hd, hts]
  rw [if_pos (by norm_num : (1 : Elem) > 0), if_pos ⟨h1, h2⟩]
  simp [mkHitRec, Ray.point_at_parameter, Vec3.ext_iff]
  norm_num

/-- Concrete evaluation of the aggregate hit on the one-sphere scene. -/
theorem hitList_example (t_min t_max : Elem) (h1 : t_min < 1)
    (h2 : 1 < t_max) :
    hitList [Sphere.mk (Vec3.mk 0 0 0) 1 (Mat.dielectric 1)]
        (Ray.mk (Vec3.mk 0 0 (-2)) (Vec3.mk 0 0 1)) t_min t_max =
      some (HitRecord.mk 1 (Vec3.mk 0 0 (-1)) (Vec3.mk 0 0 (-1))
        (Mat.dielectric 1)) := by
  unfold hitList
  rw [List.filterMap_cons, sphereHit_example_interval t_min t_max h1 h2]
  simp [minByTime]

/-- C5: the aggregate hit over a list of surfaces returns a member's hit of
minimal `t` among all member hits satisfying the interval, and no hit when
every member reports none. -/
theorem aggregate_hit_min_time (l : List Sphere) (ray : Ray)
    (t_min t_max : Elem) :
    (hitList l ray t_min t_max = none ↔
      ∀ s ∈ l, sphereHit s ray t_min t_max = none) ∧
    (∀ hr, hitList l ray t_min t_max = some hr →
      (∃ s ∈ l, sphereHit s ray t_min t_max = some hr) ∧
      ∀ s ∈ l, ∀ hr', sphereHit s ray t_min t_max = some hr' →
        hr.time ≤ hr'.time) :=
  ⟨hitList_none_iff l ray t_min t_max, fun _ h => hitList_some h⟩

/-- Witness for C5: on the one-sphere scene the aggregate hit at `t = 1`
is produced by the member sphere. -/
theorem aggregate_hit_min_time_witness :
    ∃ s ∈ [Sphere.mk (Vec3.mk 0 0 0) 1 (Mat.dielectric 1)],
      sphereHit s (Ray.mk (Vec3.mk 0 0 (-2)) (Vec3.mk 0 0 1)) 0 10 =
        some (HitRecord.mk 1 (Vec3.mk 0 0 (-1)) (Vec3.mk 0 0 (-1))
          (Mat.dielectric 1)) :=
  ((aggregate_hit_min_time [Sphere.mk (Vec3.mk 0 0 0) 1 (Mat.dielectric 1)]
      (Ray.mk (Vec3.mk 0 0 (-2)) (Vec3.mk 0 0 1)) 0 10).2 _
    (hitList_example 0 10 (by norm_num) (by norm_num))).1

/-- C9: every record returned by `Sphere::hit` — and hence by the aggregate
hit, for the sphere that produced it — satisfies
`t_min < time < t_max`, `point = ray.point_at_parameter(time)` and
`normal = (point − center) / radius`. -/
theorem hit_record_invariants (ray : Ray) (t_min t_max : Elem) :
    (∀ (s : Sphere) (hr : HitRecord), sphereHit s ray t_min t_max = some hr →
      t_min < hr.time ∧ hr.time < t_max ∧
      hr.point = ray.point_at_parameter hr.time ∧
      hr.normal = (hr.point - s.center) / s.radius) ∧
    (∀ (l : List Sphere) (hr : HitRecord),
      hitList l ray t_min t_max = some hr →
      ∃ s ∈ l, t_min < hr.time ∧ hr.time < t_max ∧
        hr.point = ray.point_at_parameter hr.time ∧
        hr.normal = (hr.point - s.center) / s.radius) := by
  have hs : ∀ (s : Sphere) (hr : HitRecord),
      sphereHit s ray t_min t_max = some hr →
      t_min < hr.time ∧ hr.time < t_max ∧
      hr.point = ray.point_at_parameter hr.time ∧
      hr.normal = (hr.point - s.center) / s.radius := by
    intro s hr h
    rw [sphereHit_eq] at h
    split_ifs at h with h1 h2 h3
    · cases h
      exact ⟨h2.1, h2.2, rfl, rfl⟩
    · cases h
      exact ⟨h3.1, h3.2, rfl, rfl⟩
  refine ⟨hs, ?_⟩
  intro l hr h
  obtain ⟨s, hmem, he⟩ := (hitList_some h).1
  exact ⟨s, hmem, hs s hr he⟩

/-- Witness for C9: the concrete record of the example sphere hit
satisfies the interval, point and normal invariants. -/
theorem hit_record_invariants_witness :
    (0 : Elem) < 1 ∧ (1 : Elem) < 10 ∧
    Vec3.mk 0 0 (-1) =
      (Ray.mk (Vec3.mk 0 0 (-2)) (Vec3.mk 0 0 1)).point_at_parameter 1 ∧
    Vec3.mk 0 0 (-1) = (Vec3.mk 0 0 (-1) - Vec3.mk 0 0 0) / (1 : Elem) :=
  (hit_record_invariants (Ray.mk (Vec3.mk 0 0 (-2)) (Vec3.mk 0 0 1))
    0 10).1 (Sphere.mk (Vec3.mk 0 0 0) 1 (Mat.dielectric 1))
    (HitRecord.mk 1 (Vec3.mk 0 0 (-1)) (Vec3.mk 0 0 (-1))
      (Mat.dielectric 1))
    (sphereHit_example_interval 0 10 (by norm_num) (by norm_num))

/-- C2: the estimator's recursion is depth-bounded — the number of scatter
invocations from depth `d` is at most `50 - d` (hence at most 50 from
depth 0, and `color` is total); and at depth `≥ 50` a hit returns black
`(0,0,0)` with no scatter invocation at all. -/
theorem color_recursion_bounded (ρ : ℕ → RandDraw) (world : List Sphere)
    (ray : Ray) (depth : ℕ) :
    scatterCalls ρ world ray depth ≤ 50 - depth ∧
    (50 ≤ depth → ∀ hr, hitList world ray 0.001 f32MAX = some hr →
      color ρ world ray depth = Vec3.zero ∧
      scatterCalls ρ world ray depth = 0) :=
  ⟨scatterCalls_le_aux ρ world (50 - depth) ray depth le_rfl,
    fun h50 _ hhit => color_cutoff h50 hhit⟩

/-- Witness for C2: at depth 50 the one-sphere scene is hit, yet the
estimator returns black. -/
theorem color_recursion_bounded_witness :
    color (fun _ => RandDraw.mk (Vec3.mk 0 0 0) 0)
        [Sphere.mk (Vec3.mk 0 0 0) 1 (Mat.dielectric 1)]
        (Ray.mk (Vec3.mk 0 0 (-2)) (Vec3.mk 0 0 1)) 50 = Vec3.zero :=
  ((color_recursion_bounded (fun _ => RandDraw.mk (Vec3.mk 0 0 0) 0)
      [Sphere.mk (Vec3.mk 0 0 0) 1 (Mat.dielectric 1)]
      (Ray.mk (Vec3.mk 0 0 (-2)) (Vec3.mk 0 0 1)) 50).2 (by norm_num) _
    (hitList_example 0.001 f32MAX (by norm_num) (by norm_num [f32MAX]))).1

/-- C6: a ray that hits nothing yields the deterministic background
gradient `(1−t)·(1,1,1) + t·(0.5,0.7,1.0)` with
`t = 0.5·(unit(direction).y + 1)`, independent of the randomness oracle
and of the depth. -/
theorem color_miss_background (ρ : ℕ → RandDraw) (world : List Sphere)
    (ray : Ray) (depth : ℕ)
    (h : hitList world ray 0.001 f32MAX = none) :
    color ρ world ray depth =
      (1 - 0.5 * ((Vec3.unit_vector ray.direction).y + 1)) * Vec3.mk 1 1 1 +
        (0.5 * ((Vec3.unit_vector ray.direction).y + 1)) *
          Vec3.mk 0.5 0.7 1.0 :=
  color_none depth h

/-- Witness for C6: a ray pointing straight up in the empty scene hits
nothing and yields the background gradient. -/
theorem color_miss_background_witness :
    color (fun _ => RandDraw.mk (Vec3.mk 0 0 0) 0) []
        (Ray.mk (Vec3.mk 0 0 0) (Vec3.mk 0 1 0)) 7 =
      (1 - 0.5 * ((Vec3.unit_vector (Vec3.mk 0 1 0)).y + 1)) *
          Vec3.mk 1 1 1 +
        (0.5 * ((Vec3.unit_vector (Vec3.mk 0 1 0)).y + 1)) *
          Vec3.mk 0.5 0.7 1.0 :=
  color_miss_background (fun _ => RandDraw.mk (Vec3.mk 0 0 0) 0) []
    (Ray.mk (Vec3.mk 0 0 0) (Vec3.mk 0 1 0)) 7 rfl

/-- C10: the aggregate hit on the empty surface list is always `none`, so
`color` on the empty scene is always the background gradient. -/
theorem empty_scene_background (ray : Ray) (t_min t_max : Elem)
    (ρ : ℕ → RandDraw) (depth : ℕ) :
    hitList [] ray t_min t_max = none ∧
    color ρ [] ray depth =
      (1 - 0.5 * ((Vec3.unit_vector ray.direction).y + 1)) * Vec3.mk 1 1 1 +
        (0.5 * ((Vec3.unit_vector ray.direction).y + 1)) *
          Vec3.mk 0.5 0.7 1.0 :=
  ⟨rfl, color_none depth rfl⟩

/-- `pixelOut` on any nonempty list of unit-cube samples: each channel is
the floor of `255.99` times the square root of the channel average, and
lies in `[0,255]`. -/
theorem pixelOut_bounded (samples : List Vec3)
    (hIn : ∀ v ∈ samples, InUnit v) (hne : samples ≠ []) :
    ((pixelOut samples).1 =
        ⌊Real.sqrt ((samples.foldl (· + ·) Vec3.zero).x /
          (samples.length : Elem)) * 255.99⌋ ∧
      0 ≤ (pixelOut samples).1 ∧ (pixelOut samples).1 ≤ 255) ∧
    ((pixelOut samples).2.1 =
        ⌊Real.sqrt ((samples.foldl (· + ·) Vec3.zero).y /
          (samples.length : Elem)) * 255.99⌋ ∧
      0 ≤ (pixelOut samples).2.1 ∧ (pixelOut samples).2.1 ≤ 255) ∧
    ((pixelOut samples).2.2 =
        ⌊Real.sqrt ((samples.foldl (· + ·) Vec3.zero).z /
          (samples.length : Elem)) * 255.99⌋ ∧
      0 ≤ (pixelOut samples).2.2 ∧ (pixelOut samples).2.2 ≤ 255) := by
  have hn : (0 : ℝ) < (samples.length : Elem) := by
    cases samples with
    | nil => exact absurd rfl hne
    | cons a t =>
      have : 0 < (a :: t).length := Nat.succ_pos _
      exact_mod_cast this
  have hxB : ∀ a ∈ samples.map Vec3.x, 0 ≤ a ∧ a ≤ 1 := by
    intro a ha
    obtain ⟨v, hv, rfl⟩ := List.mem_map.mp ha
    obtain ⟨u1, u2, _, _, _, _⟩ := hIn v hv
    exact ⟨u1, u2⟩
  have hyB : ∀ a ∈ samples.map Vec3.y, 0 ≤ a ∧ a ≤ 1 := by
    intro a ha
    obtain ⟨v, hv, rfl⟩ := List.mem_map.mp ha
    obtain ⟨_, _, u3, u4, _, _⟩ := hIn v hv
    exact ⟨u3, u4⟩
  have hzB : ∀ a ∈ samples.map Vec3.z, 0 ≤ a ∧ a ≤ 1 := by
    intro a ha
    obtain ⟨v, hv, rfl⟩ := List.mem_map.mp ha
    obtain ⟨_, _, _, _, u5, u6⟩ := hIn v hv
    exact ⟨u5, u6⟩
  have hsx := list_sum_bounds _ hxB
  have hsy := list_sum_bounds _ hyB
  have hsz := list_sum_bounds _ hzB
  have htx : (samples.foldl (· + ·) Vec3.zero).x = (samples.map Vec3.x).sum := by
    rw [foldl_add_x]
    simp [Vec3.zero]
  have hty : (samples.foldl (· + ·) Vec3.zero).y = (samples.map Vec3.y).sum := by
    rw [foldl_add_y]
    simp [Vec3.zero]
  have htz : (samples.foldl (· + ·) Vec3.zero).z = (samples.map Vec3.z).sum := by
    rw [foldl_add_z]
    simp [Vec3.zero]
  have hgx := gamma_channel ((samples.foldl (· + ·) Vec3.zero).x)
    (samples.length : Elem) (by rw [htx]; exact hsx.1) hn
    (by rw [htx]; simpa using hsx.2)
  have hgy := gamma_channel ((samples.foldl (· + ·) Vec3.zero).y)
    (samples.length : Elem) (by rw [hty]; exact hsy.1) hn
    (by rw [hty]; simpa using hsy.2)
  have hgz := gamma_channel ((samples.foldl (· + ·) Vec3.zero).z)
    (samples.length : Elem) (by rw [htz]; exact hsz.1) hn
    (by rw [htz]; simpa using hsz.2)
  have hpx : (pixelOut samples).1 = toU32 (255.99 * Real.sqrt
      ((samples.foldl (· + ·) Vec3.zero).x / (samples.length : Elem))) := by
    simp only [pixelOut, Vec3.sqrt_coords, Vec3.r, Vec3.muls_x, Vec3.divs_x,
      Vec3.mk_x]
  have hpy : (pixelOut samples).2.1 = toU32 (255.99 * Real.sqrt
      ((samples.foldl (· + ·) Vec3.zero).y / (samples.length : Elem))) := by
    simp only [pixelOut, Vec3.sqrt_coords, Vec3.g, Vec3.muls_y, Vec3.divs_y,
      Vec3.mk_y]
  have hpz : (pixelOut samples).2.2 = toU32 (255.99 * Real.sqrt
      ((samples.foldl (· + ·) Vec3.zero).z / (samples.length : Elem))) := by
    simp only [pixelOut, Vec3.sqrt_coords, Vec3.b, Vec3.muls_z, Vec3.divs_z,
      Vec3.mk_z]
  refine ⟨⟨?_, ?_, ?_⟩, ⟨?_, ?_, ?_⟩, ⟨?_, ?_, ?_⟩⟩
  · rw [hpx]
    exact hgx.1
  · rw [hpx, hgx.1]
    exact hgx.2.1
  · rw [hpx, hgx.1]
    exact hgx.2.2
  · rw [hpy]
    exact hgy.1
  · rw [hpy, hgy.1]
    exact hgy.2.1
  · rw [hpy, hgy.1]
    exact hgy.2.2
  · rw [hpz]
    exact hgz.1
  · rw [hpz, hgz.1]
    exact hgz.2.1
  · rw [hpz, hgz.1]
    exact hgz.2.2

/-- C8: for a pixel whose samples are estimator outputs over a scene of
unit-cube attenuations, each emitted channel equals
`⌊√(channel average) · 255.99⌋` and is an integer in `[0,255]`. -/
theorem pixel_output_range (world : List Sphere) (hAtt : AlbedoBounded world)
    (pairs : List (Ray × (ℕ → RandDraw))) (hne : pairs ≠ []) :
    let samples := pairs.map fun p => color p.2 world p.1 0
    ((pixelOut samples).1 =
        ⌊Real.sqrt ((samples.foldl (· + ·) Vec3.zero).x /
          (samples.length : Elem)) * 255.99⌋ ∧
      0 ≤ (pixelOut samples).1 ∧ (pixelOut samples).1 ≤ 255) ∧
    ((pixelOut samples).2.1 =
        ⌊Real.sqrt ((samples.foldl (· + ·) Vec3.zero).y /
          (samples.length : Elem)) * 255.99⌋ ∧
      0 ≤ (pixelOut samples).2.1 ∧ (pixelOut samples).2.1 ≤ 255) ∧
    ((pixelOut samples).2.2 =
        ⌊Real.sqrt ((samples.foldl (· + ·) Vec3.zero).z /
          (samples.length : Elem)) * 255.99⌋ ∧
      0 ≤ (pixelOut samples).2.2 ∧ (pixelOut samples).2.2 ≤ 255) :=
  pixelOut_bounded _
    (fun v hv => by
      obtain ⟨p, hp, rfl⟩ := List.mem_map.mp hv
      exact color_InUnit_aux p.2 hAtt 50 p.1 0 (by omega))
    (fun h => hne (List.map_eq_nil.mp h))

/-- Witness for C8: a one-sample pixel over the empty scene has its red
channel in `[0,255]`. -/
theorem pixel_output_range_witness :
    0 ≤ (pixelOut ([(Ray.mk (Vec3.mk 0 0 0) (Vec3.mk 0 1 0),
        fun _ => RandDraw.mk (Vec3.mk 0 0 0) 0)].map
          fun p => color p.2 [] p.1 0)).1 ∧
    (pixelOut ([(Ray.mk (Vec3.mk 0 0 0) (Vec3.mk 0 1 0),
        fun _ => RandDraw.mk (Vec3.mk 0 0 0) 0)].map
          fun p => color p.2 [] p.1 0)).1 ≤ 255 := by
  have h := pixel_output_range [] (fun s hs => absurd hs (List.not_mem_nil s))
    [(Ray.mk (Vec3.mk 0 0 0) (Vec3.mk 0 1 0),
      fun _ => RandDraw.mk (Vec3.mk 0 0 0) 0)] (List.cons_ne_nil _ _)
  exact ⟨h.1.2.1, h.1.2.2⟩

end RT
